import Mathlib

/-!
Verification development for the stage interconnection, partial-solution
assembly and pruning subsystem of a hierarchical planning-pipeline engine.

The mock stages (PredefinedCosts, GeneratorMockup, PropagatorMockup,
Connect mockup, ForwardDummy) are embedded from the repository's test
fixtures in src/core/test/test_serial.cpp.  The engine itself (Task,
SerialContainer, Interface wiring, scheduling loop and pruner) is not part
of the available sources, so it is modelled from the specification
(sections 3, 4 and 5 of the spec): states route between stage boundaries,
stages compute in rounds, failures propagate dead marks transitively, and
end-to-end solutions are assembled lazily into a cost-sorted list.
-/

namespace MTC

/-- Cost of a solution: a finite nonnegative value, or the infinite cost
marking an infeasible solution.  The tests drive the engine exclusively
with nonnegative integer costs and infinity, so finite costs are carried
as naturals. -/
inductive Cost where
  | fin (c : Nat)
  | inf
deriving DecidableEq, Repr

/-- Addition of costs; infinity is absorbing. -/
def Cost.add : Cost → Cost → Cost
  | .fin a, .fin b => .fin (a + b)
  | _, _ => .inf

/-- Boolean comparison of costs, infinity being the largest. -/
def Cost.le : Cost → Cost → Bool
  | .fin a, .fin b => decide (a ≤ b)
  | .fin _, .inf => true
  | .inf, .fin _ => false
  | .inf, .inf => true

/-- Strict boolean comparison of costs. -/
def Cost.lt : Cost → Cost → Bool
  | .fin a, .fin b => decide (a < b)
  | .fin _, .inf => true
  | _, _ => false

/-- Sum of a list of costs. -/
def Cost.sum (l : List Cost) : Cost := l.foldr Cost.add (.fin 0)

/-- PredefinedCosts from the test fixtures: a queue of costs to assign.
Taking the next cost pops the front of the queue when it is nonempty and
remembers it; once the queue is empty the last assigned cost (initially 0)
is repeated.  Only finite streams can be exhausted. -/
structure PredefinedCosts where
  finite : Bool
  costs : List Cost
  lastCost : Cost
deriving DecidableEq, Repr

/-- A finite stream is exhausted once its queue is empty. -/
def PredefinedCosts.exhausted (p : PredefinedCosts) : Bool :=
  p.finite && p.costs.isEmpty

/-- Draw the next cost from the stream. -/
def PredefinedCosts.next (p : PredefinedCosts) : Cost × PredefinedCosts :=
  match p.costs with
  | [] => (p.lastCost, p)
  | c :: rest => (c, { p with costs := rest, lastCost := c })

/-- The mock stage variants exercised by the test suite:
generator (GeneratorMockup, a finite cost list), forward propagator
(ForwardMockup, with a number of solutions per compute), backward
propagator (BackwardMockup), connector (Connect mockup) and the forward
propagator contributing no solutions at all (ForwardDummy). -/
inductive StageSpec where
  | gen (costs : List Cost)
  | fwd (costs : List Cost) (perCompute : Nat)
  | bwd (costs : List Cost)
  | conn (costs : List Cost)
  | fwdNone
deriving DecidableEq, Repr

/-- Initial cost stream of a stage: generators are finite, all other
mock stages repeat their stream forever. -/
def StageSpec.stream : StageSpec → PredefinedCosts
  | .gen cs => ⟨true, cs, .fin 0⟩
  | .fwd cs _ => ⟨false, cs, .fin 0⟩
  | .bwd cs => ⟨false, cs, .fin 0⟩
  | .conn cs => ⟨false, cs, .fin 0⟩
  | .fwdNone => ⟨false, [], .fin 0⟩

/-- Modelled from the spec: an InterfaceState, an immutable endpoint
between two stages.  It lives at a boundary (boundary i sits between
stage i-1 and stage i of the flattened pipeline) and carries the priority
used for scheduling: the depth of the best partial chain that produced it
and the accumulated cost of that chain. -/
structure StateRec where
  boundary : Nat
  depth : Nat
  cost : Cost
deriving DecidableEq, Repr

/-- Modelled from the spec: one stage-local solution (an atomic
SubTrajectory of a generator or propagator, or the SolutionSequence
recorded by a connector).  It spans the boundaries of its stage: its left
endpoint state lives at boundary stage and its right endpoint state at
boundary stage+1.  A cost of infinity marks a failure. -/
structure Sol where
  stage : Nat
  left : Nat
  right : Nat
  cost : Cost
deriving DecidableEq, Repr

/-- A solution is marked as failure exactly when its cost is infinite. -/
def Sol.isFailure (s : Sol) : Bool := s.cost == Cost.inf

/-- Modelled from the spec: a pending pair of a connector's work queue,
pairing one state from the left interface with one from the right. -/
structure Pair where
  pid : Nat
  l : Nat
  r : Nat
deriving DecidableEq, Repr

/-- Modelled from the spec: an end-to-end solution, the SolutionSequence
of the top-level pipeline.  It stores its ordered child solutions (one
per stage, chaining end to start) and its total cost. -/
structure EndSol where
  children : List Sol
  cost : Cost
deriving DecidableEq, Repr

/-- Construct an end-to-end solution from its children; the cost is the
sum of the child costs. -/
def mkEndSol (children : List Sol) : EndSol :=
  ⟨children, Cost.sum (children.map Sol.cost)⟩

/-- Modelled from the spec: the whole engine state of one planning run of
the flattened pipeline.  States are identified by their index in
`states`; `pendF`/`pendB` are the per-stage queues of states a forward or
backward propagator has not yet computed on; `pairs` are the per-stage
pending connector pairs; `streams` the per-stage cost streams; `calls`
the per-stage compute invocation counters; `solutions` the global sorted
list of end-to-end solutions. -/
structure Engine where
  stages : List StageSpec
  states : List StateRec
  sols : List Sol
  pendF : List (List Nat)
  pendB : List (List Nat)
  pairs : List (List Pair)
  streams : List PredefinedCosts
  calls : List Nat
  solutions : List EndSol
  nextPair : Nat
deriving Repr

/-- Record of a state id, with a harmless default for out-of-range ids. -/
def Engine.stRec (e : Engine) (s : Nat) : StateRec :=
  e.states.getD s ⟨0, 0, .inf⟩

/-- Cost stream of a stage. -/
def Engine.streamAt (e : Engine) (i : Nat) : PredefinedCosts :=
  e.streams.getD i ⟨false, [], .fin 0⟩

/-- Pending forward-propagation inputs of a stage. -/
def Engine.pendFAt (e : Engine) (i : Nat) : List Nat := e.pendF.getD i []

/-- Pending backward-propagation inputs of a stage. -/
def Engine.pendBAt (e : Engine) (i : Nat) : List Nat := e.pendB.getD i []

/-- Pending connector pairs of a stage. -/
def Engine.pairsAt (e : Engine) (i : Nat) : List Pair := e.pairs.getD i []

/-- Compute invocation count of a stage. -/
def Engine.callsAt (e : Engine) (i : Nat) : Nat := e.calls.getD i 0

/-- Stage spec at an index; out-of-range indices yield an exhausted
generator, which never computes and never grows an interface. -/
def Engine.stageAt (e : Engine) (i : Nat) : StageSpec :=
  e.stages.getD i (.gen [])

/-- Update one entry of a list of lists. -/
def updList (l : List (List α)) (i : Nat) (f : List α → List α) :
    List (List α) :=
  l.set i (f (l.getD i []))

/-- Ids of the states currently sitting at a boundary, in arrival order. -/
def Engine.statesAt (e : Engine) (j : Nat) : List Nat :=
  (List.range e.states.length).filter (fun s => (e.stRec s).boundary == j)

/-- Queries of the pruning analysis: is a state dead in the forward or
backward direction, and can a boundary still receive new states from its
left (forward influx) or from its right (backward influx). -/
inductive PruneQuery where
  | deadF (s : Nat)
  | deadB (s : Nat)
  | growF (j : Nat)
  | growB (j : Nat)

/-- Modelled from the spec: the pruner.  A state is dead in a direction
once all of its options in that direction are exhausted or failed, and
deadness propagates transitively through the solution graph:

a state is dead forward when the stage consuming it forward can never
produce another solution from it (a propagator already computed on it, a
connector has no live pending pair for it and the opposite interface can
never grow) and every feasible solution leaving it ends in a state that
is itself dead forward.  States at the pipeline end boundary are never
dead forward.  Dead backward is the mirror image.  A boundary can grow
forward when the stage to its left is a non-exhausted generator or a
forward propagator that can still compute; backward is the mirror.

The fuel argument dominates the boundary distance walked; queries walk
strictly monotonically along boundaries, so fuel `stages.length + 2`
is always sufficient.  Exhausted fuel conservatively answers alive and
growing. -/
def pruneQ (e : Engine) : Nat → PruneQuery → Bool
  | 0, .deadF _ => false
  | 0, .deadB _ => false
  | 0, .growF _ => true
  | 0, .growB _ => true
  | fuel + 1, .deadF s =>
    let j := (e.stRec s).boundary
    if e.stages.length ≤ j then false
    else
      let noFuture :=
        match e.stageAt j with
        | .gen _ => true
        | .bwd _ => true
        | .fwd _ _ => !(e.pendFAt j).contains s
        | .fwdNone => !(e.pendFAt j).contains s
        | .conn _ =>
          ((e.pairsAt j).all fun p =>
            p.l != s || pruneQ e fuel (.deadF p.r)) &&
          !(pruneQ e fuel (.growB (j + 1)))
      noFuture &&
        (e.sols.all fun so =>
          so.left != s || so.cost == Cost.inf || pruneQ e fuel (.deadF so.right))
  | fuel + 1, .deadB s =>
    match (e.stRec s).boundary with
    | 0 => false
    | jm + 1 =>
      let noFuture :=
        match e.stageAt jm with
        | .gen _ => true
        | .fwd _ _ => true
        | .fwdNone => true
        | .bwd _ => !(e.pendBAt jm).contains s
        | .conn _ =>
          ((e.pairsAt jm).all fun p =>
            p.r != s || pruneQ e fuel (.deadB p.l)) &&
          !(pruneQ e fuel (.growF jm))
      noFuture &&
        (e.sols.all fun so =>
          so.right != s || so.cost == Cost.inf || pruneQ e fuel (.deadB so.left))
  | fuel + 1, .growF j =>
    match j with
    | 0 => false
    | jm + 1 =>
      match e.stageAt jm with
      | .gen _ => !(e.streamAt jm).exhausted
      | .fwd _ _ =>
        ((e.pendFAt jm).any fun s => !(pruneQ e fuel (.deadB s))) ||
        pruneQ e fuel (.growF jm)
      | _ => false
  | fuel + 1, .growB j =>
    if e.stages.length ≤ j then false
    else
      match e.stageAt j with
      | .gen _ => !(e.streamAt j).exhausted
      | .bwd _ =>
        ((e.pendBAt j).any fun s => !(pruneQ e fuel (.deadF s))) ||
        pruneQ e fuel (.growB (j + 1))
      | _ => false

/-- Pruning fuel sufficient for any query: one unit per boundary. -/
def Engine.pruneFuel (e : Engine) : Nat := e.stages.length + 2

/-- Is a state dead in the forward direction (no chain through it can
reach the pipeline end any more)? -/
def Engine.deadFwd (e : Engine) (s : Nat) : Bool :=
  pruneQ e e.pruneFuel (.deadF s)

/-- Is a state dead in the backward direction (no chain through it can
be reached from the pipeline start any more)? -/
def Engine.deadBwd (e : Engine) (s : Nat) : Bool :=
  pruneQ e e.pruneFuel (.deadB s)

/-- Pick the best element of a work queue: the first element that no
later element strictly beats, so that ties resolve to arrival order. -/
def pickBest (better : α → α → Bool) : List α → Option α
  | [] => none
  | x :: xs => some (xs.foldl (fun b y => if better y b then y else b) x)

/-- Modelled from the spec: priority order of pending interface states.
Deeper states take precedence; among equal depths lower accumulated cost
wins. -/
def Engine.stateBetter (e : Engine) (a b : Nat) : Bool :=
  let ra := e.stRec a
  let rb := e.stRec b
  if ra.depth != rb.depth then rb.depth < ra.depth
  else Cost.lt ra.cost rb.cost

/-- Modelled from the spec: priority order of pending connector pairs,
by combined priority of the two states (summed depth, then summed
cost). -/
def Engine.pairBetter (e : Engine) (a b : Pair) : Bool :=
  let da := (e.stRec a.l).depth + (e.stRec a.r).depth
  let db := (e.stRec b.l).depth + (e.stRec b.r).depth
  if da != db then db < da
  else Cost.lt (Cost.add (e.stRec a.l).cost (e.stRec a.r).cost)
               (Cost.add (e.stRec b.l).cost (e.stRec b.r).cost)

/-- Append one fresh pending pair for a connector stage. -/
def addPair (e : Engine) (i l r : Nat) : Engine :=
  { e with
    pairs := updList e.pairs i (fun ps => ps ++ [⟨e.nextPair, l, r⟩])
    nextPair := e.nextPair + 1 }

/-- Pair a freshly arrived left-side state of a connector with every
state currently on the opposite (right) interface. -/
def addPairsLeft (e : Engine) (i sid : Nat) : Engine :=
  (e.statesAt (i + 1)).foldl (fun ac t => addPair ac i sid t) e

/-- Pair a freshly arrived right-side state of a connector with every
state currently on the opposite (left) interface. -/
def addPairsRight (e : Engine) (i sid : Nat) : Engine :=
  (e.statesAt i).foldl (fun ac t => addPair ac i t sid) e

/-- Modelled from the spec: interface wiring.  A state spawned at a
boundary is visible to both neighboring stages without copy: the stage to
its right consumes it forward (a forward propagator enqueues it, a
connector pairs it with every state of its right interface), the stage to
its left consumes it backward (a backward propagator enqueues it, a
connector pairs it with every state of its left interface). -/
def registerFwdSide (e : Engine) (j sid : Nat) : Engine :=
  match e.stageAt j with
  | .fwd _ _ => { e with pendF := updList e.pendF j (fun l => l ++ [sid]) }
  | .fwdNone => { e with pendF := updList e.pendF j (fun l => l ++ [sid]) }
  | .conn _ => addPairsLeft e j sid
  | _ => e

/-- Hand a state to the stage at a given index when that stage consumes
it backward (a backward propagator enqueues it, a connector pairs it with
every state of its left interface). -/
def registerBwdAt (e : Engine) (jm sid : Nat) : Engine :=
  match e.stageAt jm with
  | .bwd _ => { e with pendB := updList e.pendB jm (fun l => l ++ [sid]) }
  | .conn _ => addPairsRight e jm sid
  | _ => e

/-- Hand a state at boundary j to the backward-consuming stage on its
left; at the pipeline start boundary there is none. -/
def registerBwdSide (e : Engine) (j sid : Nat) : Engine :=
  match j with
  | 0 => e
  | jm + 1 => registerBwdAt e jm sid

/-- Register a freshly spawned state with both of its neighbors. -/
def registerState (e : Engine) (sid : Nat) : Engine :=
  registerBwdSide (registerFwdSide e (e.stRec sid).boundary sid)
    (e.stRec sid).boundary sid

/-- Chains of feasible solutions covering all stages to the left of the
boundary of state `sid` and ending exactly at `sid`; recursion is fueled
by the boundary distance to the pipeline start. -/
def chainsL (e : Engine) : Nat → Nat → List (List Sol)
  | 0, _ => []
  | fuel + 1, sid =>
    if (e.stRec sid).boundary == 0 then [[]]
    else
      (e.sols.filter fun so => so.right == sid && so.cost != Cost.inf).flatMap
        fun so => (chainsL e fuel so.left).map (fun L => L ++ [so])

/-- Chains of feasible solutions covering all stages to the right of the
boundary of state `sid` and starting exactly at `sid`. -/
def chainsR (e : Engine) : Nat → Nat → List (List Sol)
  | 0, _ => []
  | fuel + 1, sid =>
    if (e.stRec sid).boundary == e.stages.length then [[]]
    else
      (e.sols.filter fun so => so.left == sid && so.cost != Cost.inf).flatMap
        fun so => (chainsR e fuel so.right).map (fun R => so :: R)

/-- Modelled from the spec: lazy enumeration.  Whenever a new feasible
solution is linked into the graph, all newly completable end-to-end
chains through it are constructed. -/
def endSolsThrough (e : Engine) (ns : Sol) : List EndSol :=
  (chainsL e (e.stages.length + 1) ns.left).flatMap fun L =>
    (chainsR e (e.stages.length + 1) ns.right).map fun R =>
      mkEndSol (L ++ ns :: R)

/-- Insert an end-to-end solution at its sorted position in the global
solution list (non-decreasing cost, new entries after equal costs). -/
def insertSorted (x : EndSol) : List EndSol → List EndSol
  | [] => [x]
  | y :: ys =>
    if Cost.le y.cost x.cost then y :: insertSorted x ys else x :: y :: ys

/-- Push newly enumerated end-to-end solutions into the sorted global
list, one sorted insertion each. -/
def pushEndSols (e : Engine) (news : List EndSol) : Engine :=
  { e with solutions := news.foldl (fun ac x => insertSorted x ac) e.solutions }

/-- Increment the compute counter of a stage (calls_ of the mockups). -/
def bumpCalls (e : Engine) (i : Nat) : Engine :=
  { e with calls := e.calls.set i (e.callsAt i + 1) }

/-- Store the advanced cost stream of a stage. -/
def setStream (e : Engine) (i : Nat) (p : PredefinedCosts) : Engine :=
  { e with streams := e.streams.set i p }

/-- Append a fresh interface state; its id is the prior length of the
state table. -/
def pushState (e : Engine) (r : StateRec) : Engine :=
  { e with states := e.states ++ [r] }

/-- Record a new stage-local solution and, when it is feasible, enumerate
every end-to-end chain it completes into the global sorted list. -/
def linkSol (e : Engine) (so : Sol) : Engine :=
  let e1 : Engine := { e with sols := so :: e.sols }
  if so.cost == Cost.inf then e1 else pushEndSols e1 (endSolsThrough e1 so)

/-- Generator compute: spawn one fresh state into each adjacent
interface, joined by one solution carrying the next predefined cost. -/
def genStep (e : Engine) (i : Nat) : Option Engine :=
  if (e.streamAt i).exhausted then none
  else
    let c := (e.streamAt i).next.1
    let e1 := bumpCalls (setStream e i (e.streamAt i).next.2) i
    let lId := e1.states.length
    let e3 := registerState (pushState e1 ⟨i, 1, c⟩) lId
    let rId := e3.states.length
    let e5 := registerState (pushState e3 ⟨i + 1, 1, c⟩) rId
    some (linkSol e5 ⟨i, lId, rId, c⟩)

/-- Forward propagator outputs: one successor state and one solution per
output, each drawing the next predefined cost. -/
def fwdOutputs (e : Engine) (i s : Nat) : Nat → Engine
  | 0 => e
  | k + 1 =>
    let c := (e.streamAt i).next.1
    let e1 := setStream e i (e.streamAt i).next.2
    let sr := e1.stRec s
    let nid := e1.states.length
    let e3 := registerState (pushState e1 ⟨i + 1, sr.depth + 1, Cost.add sr.cost c⟩) nid
    fwdOutputs (linkSol e3 ⟨i, s, nid, c⟩) i s k

/-- Forward propagator compute: pick the highest-priority pending input
state that is still alive backward and extend it forward. -/
def fwdStep (e : Engine) (i per : Nat) : Option Engine :=
  match pickBest e.stateBetter
      ((e.pendFAt i).filter fun s => !(e.deadBwd s)) with
  | none => none
  | some s =>
    let e1 : Engine := { e with pendF := updList e.pendF i (fun l => l.erase s) }
    some (fwdOutputs (bumpCalls e1 i) i s per)

/-- Backward propagator outputs: mirror image of the forward case. -/
def bwdOutputs (e : Engine) (i s : Nat) : Nat → Engine
  | 0 => e
  | k + 1 =>
    let c := (e.streamAt i).next.1
    let e1 := setStream e i (e.streamAt i).next.2
    let sr := e1.stRec s
    let nid := e1.states.length
    let e3 := registerState (pushState e1 ⟨i, sr.depth + 1, Cost.add sr.cost c⟩) nid
    bwdOutputs (linkSol e3 ⟨i, nid, s, c⟩) i s k

/-- Backward propagator compute: pick the highest-priority pending input
state that is still alive forward and extend it backward. -/
def bwdStep (e : Engine) (i : Nat) : Option Engine :=
  match pickBest e.stateBetter
      ((e.pendBAt i).filter fun s => !(e.deadFwd s)) with
  | none => none
  | some s =>
    let e1 : Engine := { e with pendB := updList e.pendB i (fun l => l.erase s) }
    some (bwdOutputs (bumpCalls e1 i) i s 1)

/-- ForwardDummy compute: consume the pending input state and contribute
no solution at all. -/
def fwdNoneStep (e : Engine) (i : Nat) : Option Engine :=
  match pickBest e.stateBetter
      ((e.pendFAt i).filter fun s => !(e.deadBwd s)) with
  | none => none
  | some s =>
    let e1 : Engine := { e with pendF := updList e.pendF i (fun l => l.erase s) }
    some (bumpCalls e1 i)

/-- Connector compute: pick the pending pair of minimum combined priority
whose left state is alive backward and whose right state is alive
forward, remove it from the work queue for good, and record the joining
solution with the next predefined cost. -/
def connStep (e : Engine) (i : Nat) : Option Engine :=
  match pickBest e.pairBetter
      ((e.pairsAt i).filter fun p => !(e.deadBwd p.l) && !(e.deadFwd p.r)) with
  | none => none
  | some p =>
    let e1 : Engine :=
      { e with pairs := updList e.pairs i (fun l => l.filter (fun q => q.pid != p.pid)) }
    let e2 := bumpCalls e1 i
    let c := (e2.streamAt i).next.1
    some (linkSol (setStream e2 i (e2.streamAt i).next.2) ⟨i, p.l, p.r, c⟩)

/-- Dispatch one compute of a stage; none when the stage cannot compute
(exhausted generator, or no live pending work). -/
def stepStage (e : Engine) (i : Nat) : Option Engine :=
  match e.stageAt i with
  | .gen _ => genStep e i
  | .fwd _ per => fwdStep e i per
  | .bwd _ => bwdStep e i
  | .fwdNone => fwdNoneStep e i
  | .conn _ => connStep e i

/-- Modelled from the spec: one round of the scheduling loop.  Every
stage that can currently compute is invoked exactly once, in pipeline
order; the flag records whether any stage progressed. -/
def roundStep (e : Engine) : Engine × Bool :=
  (List.range e.stages.length).foldl
    (fun ac i =>
      match stepStage ac.1 i with
      | none => ac
      | some e2 => (e2, true))
    (e, false)

/-- Modelled from the spec: drive compute rounds until no stage can
progress (or the fuel bound, standing in for the soft deadline, is
reached). -/
def Engine.run (e : Engine) : Nat → Engine
  | 0 => e
  | fuel + 1 =>
    let r := roundStep e
    if r.2 then r.1.run fuel else e

/-- An element of a pipeline: a leaf stage, or a SerialContainer grouping
an ordered list of stages. -/
inductive StageItem where
  | leaf (s : StageSpec)
  | box (children : List StageSpec)
deriving DecidableEq, Repr

/-- Modelled from the spec: a SerialContainer exposes its leftmost
child's starts and its rightmost child's ends as its own interfaces,
making it indistinguishable from a leaf stage to its parent; interface
wiring, scheduling order and pruning therefore act on the flattened
child sequence. -/
def flattenTask : List StageItem → List StageSpec
  | [] => []
  | .leaf s :: rest => s :: flattenTask rest
  | .box cs :: rest => cs ++ flattenTask rest

/-- Fresh engine for a stage list: empty interfaces, initial cost
streams, zeroed counters, empty solution list. -/
def initEngine (specs : List StageSpec) : Engine :=
  { stages := specs
    states := []
    sols := []
    pendF := List.replicate specs.length []
    pendB := List.replicate specs.length []
    pairs := List.replicate specs.length []
    streams := specs.map StageSpec.stream
    calls := List.replicate specs.length 0
    solutions := []
    nextPair := 0 }

/-- Modelled from the spec: Task.plan.  Flatten the pipeline, run the
scheduling loop to exhaustion and return the final engine state. -/
def planTask (t : List StageItem) (fuel : Nat) : Engine :=
  (initEngine (flattenTask t)).run fuel

/-- Modelled from the spec: the boolean result of Task.plan, true iff at
least one end-to-end solution was enumerated. -/
def planReturns (t : List StageItem) (fuel : Nat) : Bool :=
  !(planTask t fuel).solutions.isEmpty

/-- Costs of the enumerated end-to-end solutions, in list order. -/
def solutionCosts (e : Engine) : List Cost :=
  e.solutions.map EndSol.cost

/-- An end-to-end solution is marked as failure exactly when its cost is
infinite. -/
def EndSol.isFailure (es : EndSol) : Bool := es.cost == Cost.inf

/-- Pipeline of TEST(ConnectConnect, SuccSucc):
Gen(1,2,3) ; Conn ; Gen(10,20) ; Conn ; Gen(0). -/
def pplSuccSucc : List StageItem :=
  [.leaf (.gen [.fin 1, .fin 2, .fin 3]), .leaf (.conn []),
   .leaf (.gen [.fin 10, .fin 20]), .leaf (.conn []), .leaf (.gen [.fin 0])]

/-- Pipeline of TEST(ConnectConnect, FailSucc):
Gen(0) ; Conn(inf) ; Gen(0) ; Conn ; Gen(0) ; ForwardDummy. -/
def pplFailSucc : List StageItem :=
  [.leaf (.gen [.fin 0]), .leaf (.conn [.inf]), .leaf (.gen [.fin 0]),
   .leaf (.conn []), .leaf (.gen [.fin 0]), .leaf .fwdNone]

/-- Pipeline of TEST(Pruning, PropagatorFailure):
Backward ; Gen(0) ; Forward(inf). -/
def pplPropFail : List StageItem :=
  [.leaf (.bwd [.fin 0]), .leaf (.gen [.fin 0]), .leaf (.fwd [.inf] 1)]

/-- Pipeline of TEST(Pruning, PruningMultiForward):
Back ; Back ; Gen(0) ; Forward(0,0 with two outputs per compute) ;
Forward(0,inf). -/
def pplMultiFwd : List StageItem :=
  [.leaf (.bwd [.fin 0]), .leaf (.bwd [.fin 0]), .leaf (.gen [.fin 0]),
   .leaf (.fwd [.fin 0, .fin 0] 2), .leaf (.fwd [.fin 0, .inf] 1)]

/-- Pipeline of TEST(Pruning, ConnectConnectForward):
Gen(0) ; Conn(inf,0) ; Gen(0,10,20) ; Forward ; Conn ; Gen(1,2,3). -/
def pplConnFwd : List StageItem :=
  [.leaf (.gen [.fin 0]), .leaf (.conn [.inf, .fin 0]),
   .leaf (.gen [.fin 0, .fin 10, .fin 20]), .leaf (.fwd [.fin 0] 1),
   .leaf (.conn []), .leaf (.gen [.fin 1, .fin 2, .fin 3])]

/-- Pipeline of TEST(Pruning, ConnectConnectBackward), the mirrored
variant of the connector-pruning pipeline:
Gen(1,2,3) ; Conn ; Backward ; Gen(0,inf,10,20) ; Conn(inf,0) ; Gen(0). -/
def pplConnBwd : List StageItem :=
  [.leaf (.gen [.fin 1, .fin 2, .fin 3]), .leaf (.conn []),
   .leaf (.bwd [.fin 0]), .leaf (.gen [.fin 0, .inf, .fin 10, .fin 20]),
   .leaf (.conn [.inf, .fin 0]), .leaf (.gen [.fin 0])]

/-- Pipeline of TEST(Pruning, PropagateInsideContainerBoundaries):
Back(inf) ; Gen(0) ; SerialContainer(Conn ; Gen(0)).  The connector
inside the container has flattened stage index 2. -/
def pplContainer : List StageItem :=
  [.leaf (.bwd [.inf]), .leaf (.gen [.fin 0]),
   .box [.conn [], .gen [.fin 0]]]

/-- The global solution list is in non-decreasing order of cost. -/
def SortedCosts (l : List EndSol) : Prop :=
  l.Chain' fun a b => Cost.le a.cost b.cost = true

/-- The children of a composed solution chain end to start. -/
def ChainLinked (l : List Sol) : Prop :=
  l.Chain' fun a b => a.right = b.left

/-- A well-formed end-to-end solution: its cost is the sum of its child
costs and its children chain end to start. -/
def GoodEnd (es : EndSol) : Prop :=
  es.cost = Cost.sum (es.children.map Sol.cost) ∧ ChainLinked es.children

/-- Invariant of the global solution list, maintained by every step of
the engine: the list is sorted by cost and every member is a well-formed
end-to-end solution. -/
def Inv (e : Engine) : Prop :=
  SortedCosts e.solutions ∧ ∀ es ∈ e.solutions, GoodEnd es

end MTC

namespace MRViz

/-- DisplaySolution from display_solution.h: the overall step count
`steps_` together with the two members the inline size_t overload of
getWayPointDurationFromPrevious relies on.  indexPair and the IndexPair
overload are implemented outside the available headers, so they are kept
abstract as function-valued fields; durations are carried as exact
rationals in place of floats, which does not affect the control flow
under verification. -/
structure DisplaySolution where
  steps : Nat
  indexPair : Nat → Nat × Nat
  durationFromPreviousPair : Nat × Nat → ℚ

/-- The inline size_t overload of getWayPointDurationFromPrevious: an
index of at least steps_ yields 0.0, otherwise the call delegates to the
IndexPair overload applied to indexPair(index). -/
def DisplaySolution.getWayPointDurationFromPrevious
    (d : DisplaySolution) (index : Nat) : ℚ :=
  if d.steps ≤ index then 0 else d.durationFromPreviousPair (d.indexPair index)

end MRViz

namespace MTC

/-- Two costs failing the order one way satisfy it the other way. -/
theorem Cost.le_of_not_le {a b : Cost} (h : Cost.le a b = false) :
    Cost.le b a = true := by
  cases a <;> cases b
  all_goals simp_all [Cost.le]
  all_goals omega

/-- Cost addition yields infinity exactly when one summand is infinite. -/
theorem Cost.add_eq_inf {a b : Cost} :
    Cost.add a b = Cost.inf ↔ a = Cost.inf ∨ b = Cost.inf := by
  cases a <;> cases b <;> simp [Cost.add]

/-- Summing a nonempty list starts with one addition. -/
theorem Cost.sum_cons (c : Cost) (l : List Cost) :
    Cost.sum (c :: l) = Cost.add c (Cost.sum l) := rfl

/-- A sum of costs is infinite exactly when some summand is. -/
theorem Cost.sum_eq_inf (l : List Cost) :
    Cost.sum l = Cost.inf ↔ ∃ c ∈ l, c = Cost.inf := by
  induction l with
  | nil => simp [Cost.sum]
  | cons c l ih => rw [Cost.sum_cons, Cost.add_eq_inf, ih]; simp [eq_comm]

/-- The head of a sorted insertion is the new element or the old head. -/
theorem insertSorted_head (x : EndSol) (l : List EndSol) :
    (insertSorted x l).head? = some x ∨ (insertSorted x l).head? = l.head? := by
  cases l with
  | nil => left; rfl
  | cons y ys =>
    by_cases h : Cost.le y.cost x.cost = true
    · right; simp [insertSorted, h]
    · left; simp [insertSorted, h]

/-- Sorted insertion preserves sortedness of the solution list. -/
theorem sorted_insertSorted (x : EndSol) (l : List EndSol)
    (h : SortedCosts l) : SortedCosts (insertSorted x l) := by
  induction l with
  | nil => simp [insertSorted, SortedCosts]
  | cons y ys ih =>
    obtain ⟨hy, hys⟩ := List.chain'_cons'.mp h
    by_cases hc : Cost.le y.cost x.cost = true
    · have hrec := ih hys
      simp only [insertSorted, hc, if_true]
      refine List.chain'_cons'.mpr ⟨?_, hrec⟩
      intro z hz
      rcases insertSorted_head x ys with h1 | h1
      · rw [h1, Option.mem_def, Option.some.injEq] at hz
        rw [hz] at hc
        exact hc
      · rw [h1] at hz
        exact hy z hz
    · simp only [insertSorted, hc, if_false]
      refine List.chain'_cons.mpr ⟨?_, h⟩
      exact Cost.le_of_not_le (Bool.not_eq_true _ ▸ hc)

/-- Membership in a sorted insertion. -/
theorem mem_insertSorted {y x : EndSol} {l : List EndSol}
    (h : y ∈ insertSorted x l) : y = x ∨ y ∈ l := by
  induction l with
  | nil => simpa [insertSorted] using h
  | cons z zs ih =>
    cases hc : Cost.le z.cost x.cost with
    | true =>
      simp only [insertSorted, hc, if_true, List.mem_cons] at h
      rcases h with h | h
      · right; simp [h]
      · rcases ih h with h1 | h1
        · left; exact h1
        · right; simp [h1]
    | false =>
      simp only [insertSorted, hc, Bool.false_eq_true, if_false,
        List.mem_cons] at h
      rcases h with h | h | h
      · left; exact h
      · right; simp [h]
      · right; simp [h]

/-- Folding sorted insertions over any batch preserves sortedness. -/
theorem sorted_foldl_insert (news : List EndSol) :
    ∀ l, SortedCosts l →
      SortedCosts (news.foldl (fun ac x => insertSorted x ac) l) := by
  induction news with
  | nil => intro l h; exact h
  | cons n ns ih => intro l h; exact ih _ (sorted_insertSorted n l h)

/-- Membership after folding sorted insertions. -/
theorem mem_foldl_insert {y : EndSol} (news : List EndSol) :
    ∀ l, y ∈ news.foldl (fun ac x => insertSorted x ac) l →
      y ∈ news ∨ y ∈ l := by
  induction news with
  | nil => intro l h; right; exact h
  | cons n ns ih =>
    intro l h
    rcases ih _ h with h1 | h1
    · left; exact List.mem_cons_of_mem _ h1
    · rcases mem_insertSorted h1 with h2 | h2
      · left; simp [h2]
      · right; exact h2

/-- Every left chain is linked and ends at the requested state. -/
theorem chainsL_spec (e : Engine) :
    ∀ fuel sid L, L ∈ chainsL e fuel sid →
      ChainLinked L ∧ ∀ a ∈ L.getLast?, Sol.right a = sid := by
  intro fuel
  induction fuel with
  | zero => intro sid L h; simp [chainsL] at h
  | succ f ih =>
    intro sid L h
    by_cases hb : ((e.stRec sid).boundary == 0) = true
    · simp only [chainsL, hb, if_true, List.mem_singleton] at h
      subst h
      exact ⟨List.chain'_nil, by simp⟩
    · simp only [chainsL, hb, Bool.false_eq_true, if_false,
        List.mem_flatMap, List.mem_map, List.mem_filter] at h
      obtain ⟨so, ⟨hso, hcond⟩, L1, hL1, rfl⟩ := h
      obtain ⟨hchain, hlast⟩ := ih so.left L1 hL1
      have hright : so.right = sid := by
        have := (Bool.and_eq_true ..).mp hcond
        exact beq_iff_eq.mp this.1
      refine ⟨?_, ?_⟩
      · refine List.chain'_append.mpr ⟨hchain, List.chain'_singleton so, ?_⟩
        intro a ha b hbm
        rw [List.head?_cons, Option.mem_def, Option.some.injEq] at hbm
        subst hbm
        exact hlast a ha
      · intro a ha
        rw [List.getLast?_concat, Option.mem_def, Option.some.injEq] at ha
        subst ha
        exact hright

/-- Every right chain is linked and starts at the requested state. -/
theorem chainsR_spec (e : Engine) :
    ∀ fuel sid R, R ∈ chainsR e fuel sid →
      ChainLinked R ∧ ∀ a ∈ R.head?, Sol.left a = sid := by
  intro fuel
  induction fuel with
  | zero => intro sid R h; simp [chainsR] at h
  | succ f ih =>
    intro sid R h
    by_cases hb : ((e.stRec sid).boundary == e.stages.length) = true
    · simp only [chainsR, hb, if_true, List.mem_singleton] at h
      subst h
      exact ⟨List.chain'_nil, by simp⟩
    · simp only [chainsR, hb, Bool.false_eq_true, if_false,
        List.mem_flatMap, List.mem_map, List.mem_filter] at h
      obtain ⟨so, ⟨hso, hcond⟩, R1, hR1, rfl⟩ := h
      obtain ⟨hchain, hhead⟩ := ih so.right R1 hR1
      have hleft : so.left = sid := by
        have := (Bool.and_eq_true ..).mp hcond
        exact beq_iff_eq.mp this.1
      refine ⟨?_, ?_⟩
      · refine List.chain'_cons'.mpr ⟨?_, hchain⟩
        intro b hbm
        exact (hhead b hbm).symm
      · intro a ha
        rw [List.head?_cons, Option.mem_def, Option.some.injEq] at ha
        subst ha
        exact hleft

/-- Every end-to-end solution enumerated through a new link is
well-formed: its cost is the sum of its child costs and its children
chain end to start. -/
theorem goodEnd_endSolsThrough (e : Engine) (ns : Sol) :
    ∀ es ∈ endSolsThrough e ns, GoodEnd es := by
  intro es h
  simp only [endSolsThrough, List.mem_flatMap, List.mem_map] at h
  obtain ⟨L, hL, R, hR, rfl⟩ := h
  obtain ⟨hLc, hLlast⟩ := chainsL_spec e _ _ L hL
  obtain ⟨hRc, hRhead⟩ := chainsR_spec e _ _ R hR
  refine ⟨rfl, ?_⟩
  rw [ChainLinked]
  refine List.chain'_append.mpr ⟨hLc, ?_, ?_⟩
  · refine List.chain'_cons'.mpr ⟨?_, hRc⟩
    intro b hbm
    exact (hRhead b hbm).symm
  · intro a ha b hbm
    rw [List.head?_cons, Option.mem_def, Option.some.injEq] at hbm
    subst hbm
    exact hLlast a ha

/-- Adding a connector pair leaves the global solution list unchanged. -/
theorem solutions_addPair (e : Engine) (i l r : Nat) :
    (addPair e i l r).solutions = e.solutions := rfl

/-- Pairing a left arrival leaves the global solution list unchanged. -/
theorem solutions_addPairsLeft (e : Engine) (i sid : Nat) :
    (addPairsLeft e i sid).solutions = e.solutions := by
  unfold addPairsLeft
  generalize e.statesAt (i + 1) = ts
  induction ts generalizing e with
  | nil => rfl
  | cons t ts ih => exact ih (addPair e i sid t)

/-- Pairing a right arrival leaves the global solution list unchanged. -/
theorem solutions_addPairsRight (e : Engine) (i sid : Nat) :
    (addPairsRight e i sid).solutions = e.solutions := by
  unfold addPairsRight
  generalize e.statesAt i = ts
  induction ts generalizing e with
  | nil => rfl
  | cons t ts ih => exact ih (addPair e i t sid)

/-- Registering an arrival on the forward side leaves the global
solution list unchanged. -/
theorem solutions_registerFwdSide (e : Engine) (j sid : Nat) :
    (registerFwdSide e j sid).solutions = e.solutions := by
  unfold registerFwdSide
  rcases hst : e.stageAt j with cs | ⟨cs, per⟩ | cs | cs | _
  all_goals first
    | rfl
    | exact solutions_addPairsLeft e j sid

/-- Registering an arrival on the backward side leaves the global
solution list unchanged. -/
theorem solutions_registerBwdAt (e : Engine) (jm sid : Nat) :
    (registerBwdAt e jm sid).solutions = e.solutions := by
  unfold registerBwdAt
  rcases hst : e.stageAt jm with cs | ⟨cs, per⟩ | cs | cs | _
  all_goals first
    | rfl
    | exact solutions_addPairsRight e jm sid

/-- Registering an arrival on the backward side leaves the global
solution list unchanged. -/
theorem solutions_registerBwdSide (e : Engine) (j sid : Nat) :
    (registerBwdSide e j sid).solutions = e.solutions := by
  rcases j with _ | jm
  · rfl
  · exact solutions_registerBwdAt e jm sid

/-- Registering a fresh state leaves the global solution list
unchanged. -/
theorem solutions_registerState (e : Engine) (sid : Nat) :
    (registerState e sid).solutions = e.solutions := by
  unfold registerState
  rw [solutions_registerBwdSide, solutions_registerFwdSide]

/-- Appending a state leaves the global solution list unchanged. -/
theorem solutions_pushState (e : Engine) (r : StateRec) :
    (pushState e r).solutions = e.solutions := rfl

/-- Counting a compute leaves the global solution list unchanged. -/
theorem solutions_bumpCalls (e : Engine) (i : Nat) :
    (bumpCalls e i).solutions = e.solutions := rfl

/-- Advancing a cost stream leaves the global solution list unchanged. -/
theorem solutions_setStream (e : Engine) (i : Nat) (p : PredefinedCosts) :
    (setStream e i p).solutions = e.solutions := rfl

/-- The invariant only concerns the global solution list, so it
transfers along equal solution lists. -/
theorem inv_of_solutions_eq {e e2 : Engine}
    (hs : e2.solutions = e.solutions) (h : Inv e) : Inv e2 := by
  unfold Inv at h ⊢
  rw [hs]
  exact h

/-- Pushing a batch of well-formed end-to-end solutions preserves the
invariant. -/
theorem inv_pushEndSols (e : Engine) (news : List EndSol) (h : Inv e)
    (hn : ∀ es ∈ news, GoodEnd es) : Inv (pushEndSols e news) := by
  constructor
  · exact sorted_foldl_insert news e.solutions h.1
  · intro es hes
    rcases mem_foldl_insert news e.solutions hes with h1 | h1
    · exact hn es h1
    · exact h.2 es h1

/-- Linking one stage-local solution preserves the invariant. -/
theorem inv_linkSol (e : Engine) (so : Sol) (h : Inv e) :
    Inv (linkSol e so) := by
  unfold linkSol
  have h1 : Inv { e with sols := so :: e.sols } := inv_of_solutions_eq rfl h
  by_cases hc : (so.cost == Cost.inf) = true
  · simp only [hc, if_true]
    exact h1
  · simp only [hc, Bool.false_eq_true, if_false]
    exact inv_pushEndSols _ _ h1 (goodEnd_endSolsThrough _ so)

/-- One generator compute preserves the invariant. -/
theorem inv_genStep (e : Engine) (i : Nat) (e2 : Engine)
    (hs : genStep e i = some e2) (h : Inv e) : Inv e2 := by
  unfold genStep at hs
  by_cases hex : (e.streamAt i).exhausted = true
  · simp [hex] at hs
  · simp only [hex, Bool.false_eq_true, if_false, Option.some.injEq] at hs
    subst hs
    refine inv_linkSol _ _ (inv_of_solutions_eq ?_ h)
    simp only [solutions_registerState, solutions_pushState,
      solutions_bumpCalls, solutions_setStream]

/-- Forward propagator outputs preserve the invariant. -/
theorem inv_fwdOutputs (i s : Nat) :
    ∀ k (e : Engine), Inv e → Inv (fwdOutputs e i s k) := by
  intro k
  induction k with
  | zero => intro e h; exact h
  | succ k ih =>
    intro e h
    show Inv (fwdOutputs e i s (k + 1))
    rw [fwdOutputs]
    refine ih _ (inv_linkSol _ _ (inv_of_solutions_eq ?_ h))
    simp only [solutions_registerState, solutions_pushState,
      solutions_setStream]

/-- Backward propagator outputs preserve the invariant. -/
theorem inv_bwdOutputs (i s : Nat) :
    ∀ k (e : Engine), Inv e → Inv (bwdOutputs e i s k) := by
  intro k
  induction k with
  | zero => intro e h; exact h
  | succ k ih =>
    intro e h
    show Inv (bwdOutputs e i s (k + 1))
    rw [bwdOutputs]
    refine ih _ (inv_linkSol _ _ (inv_of_solutions_eq ?_ h))
    simp only [solutions_registerState, solutions_pushState,
      solutions_setStream]

/-- One forward propagator compute preserves the invariant. -/
theorem inv_fwdStep (e : Engine) (i per : Nat) (e2 : Engine)
    (hs : fwdStep e i per = some e2) (h : Inv e) : Inv e2 := by
  unfold fwdStep at hs
  rcases hp : pickBest e.stateBetter
      ((e.pendFAt i).filter fun s => !(e.deadBwd s)) with _ | s
  · rw [hp] at hs; cases hs
  · rw [hp, Option.some.injEq] at hs
    subst hs
    exact inv_fwdOutputs i s per _ (inv_of_solutions_eq rfl h)

/-- One backward propagator compute preserves the invariant. -/
theorem inv_bwdStep (e : Engine) (i : Nat) (e2 : Engine)
    (hs : bwdStep e i = some e2) (h : Inv e) : Inv e2 := by
  unfold bwdStep at hs
  rcases hp : pickBest e.stateBetter
      ((e.pendBAt i).filter fun s => !(e.deadFwd s)) with _ | s
  · rw [hp] at hs; cases hs
  · rw [hp, Option.some.injEq] at hs
    subst hs
    exact inv_bwdOutputs i s 1 _ (inv_of_solutions_eq rfl h)

/-- One ForwardDummy compute preserves the invariant. -/
theorem inv_fwdNoneStep (e : Engine) (i : Nat) (e2 : Engine)
    (hs : fwdNoneStep e i = some e2) (h : Inv e) : Inv e2 := by
  unfold fwdNoneStep at hs
  rcases hp : pickBest e.stateBetter
      ((e.pendFAt i).filter fun s => !(e.deadBwd s)) with _ | s
  · rw [hp] at hs; cases hs
  · rw [hp, Option.some.injEq] at hs
    subst hs
    exact inv_of_solutions_eq rfl h

/-- One connector compute preserves the invariant. -/
theorem inv_connStep (e : Engine) (i : Nat) (e2 : Engine)
    (hs : connStep e i = some e2) (h : Inv e) : Inv e2 := by
  unfold connStep at hs
  rcases hp : pickBest e.pairBetter
      ((e.pairsAt i).filter fun p => !(e.deadBwd p.l) && !(e.deadFwd p.r))
      with _ | p
  · rw [hp] at hs; cases hs
  · rw [hp, Option.some.injEq] at hs
    subst hs
    exact inv_linkSol _ _ (inv_of_solutions_eq rfl h)

/-- One stage compute preserves the invariant. -/
theorem inv_stepStage (e : Engine) (i : Nat) (e2 : Engine)
    (hs : stepStage e i = some e2) (h : Inv e) : Inv e2 := by
  unfold stepStage at hs
  rcases hst : e.stageAt i with cs | ⟨cs, per⟩ | cs | cs | _ <;> rw [hst] at hs
  · exact inv_genStep e i e2 hs h
  · exact inv_fwdStep e i per e2 hs h
  · exact inv_bwdStep e i e2 hs h
  · exact inv_connStep e i e2 hs h
  · exact inv_fwdNoneStep e i e2 hs h

/-- One full scheduling round preserves the invariant. -/
theorem inv_roundStep (e : Engine) (h : Inv e) : Inv (roundStep e).1 := by
  unfold roundStep
  generalize List.range e.stages.length = idxs
  have key : ∀ (ac : Engine × Bool), Inv ac.1 →
      Inv ((idxs.foldl
        (fun ac i =>
          match stepStage ac.1 i with
          | none => ac
          | some e2 => (e2, true)) ac).1) := by
    induction idxs with
    | nil => intro ac hac; exact hac
    | cons i idxs ih =>
      intro ac hac
      rw [List.foldl_cons]
      rcases hst : stepStage ac.1 i with _ | e2
      · simp only [hst]
        exact ih ac hac
      · simp only [hst]
        exact ih (e2, true) (inv_stepStage ac.1 i e2 hst hac)
  exact key (e, false) h

/-- Running the scheduling loop preserves the invariant. -/
theorem inv_run (fuel : Nat) :
    ∀ (e : Engine), Inv e → Inv (e.run fuel) := by
  induction fuel with
  | zero => intro e h; exact h
  | succ f ih =>
    intro e h
    rw [Engine.run]
    by_cases hr : (roundStep e).2 = true
    · simp only [hr, if_true]
      exact ih _ (inv_roundStep e h)
    · simp only [hr, Bool.false_eq_true, if_false]
      exact h

/-- The freshly initialized engine satisfies the invariant. -/
theorem inv_initEngine (specs : List StageSpec) : Inv (initEngine specs) := by
  constructor
  · exact List.chain'_nil
  · intro es hes
    cases hes

/-- The final engine state of any planning run satisfies the
invariant. -/
theorem inv_planTask (t : List StageItem) (fuel : Nat) :
    Inv (planTask t fuel) :=
  inv_run fuel _ (inv_initEngine (flattenTask t))

/-- C1: for every pipeline, plan returns true precisely when at least
one end-to-end solution was enumerated, and returns false precisely when
the solution list is empty (planning exhaustion). -/
theorem plan_true_iff_solutions (t : List StageItem) (fuel : Nat) :
    (planReturns t fuel = true ↔ (planTask t fuel).solutions ≠ []) ∧
    (planReturns t fuel = false ↔ (planTask t fuel).solutions = []) := by
  unfold planReturns
  cases h : (planTask t fuel).solutions <;> simp [h]

/-- Witness for C1 at the FailSucc pipeline, where planning exhausts:
plan returns false and the solution list is empty. -/
theorem plan_true_iff_solutions_witness :
    planReturns pplFailSucc 100 = false ∧
      (planTask pplFailSucc 100).solutions = [] :=
  ⟨(plan_true_iff_solutions pplFailSucc 100).2.mpr (by decide), by decide⟩

/-- C2: sorted insertion keeps the global solution list sorted at every
insertion, and consequently after any planning run the enumerated
end-to-end solutions are in non-decreasing order of cost. -/
theorem solutions_sorted_invariant :
    (∀ (x : EndSol) (l : List EndSol), SortedCosts l →
        SortedCosts (insertSorted x l)) ∧
    ∀ (t : List StageItem) (fuel : Nat),
      SortedCosts (planTask t fuel).solutions :=
  ⟨sorted_insertSorted, fun t fuel => (inv_planTask t fuel).1⟩

/-- Witness for C2: a concrete sorted insertion and the sortedness of
the SuccSucc run. -/
theorem solutions_sorted_invariant_witness :
    SortedCosts (insertSorted (mkEndSol []) []) ∧
      SortedCosts (planTask pplSuccSucc 100).solutions :=
  ⟨solutions_sorted_invariant.1 (mkEndSol []) [] List.chain'_nil,
   solutions_sorted_invariant.2 pplSuccSucc 100⟩

/-- C3: every end-to-end solution produced by a planning run costs the
sum of its child costs, its children chain end to start, and it is
marked as failure exactly when some child is. -/
theorem endsolution_cost_and_failure (t : List StageItem) (fuel : Nat)
    (es : EndSol) (h : es ∈ (planTask t fuel).solutions) :
    es.cost = Cost.sum (es.children.map Sol.cost) ∧
    ChainLinked es.children ∧
    (es.isFailure = true ↔ ∃ ch ∈ es.children, ch.isFailure = true) := by
  obtain ⟨hc, hl⟩ := (inv_planTask t fuel).2 es h
  refine ⟨hc, hl, ?_⟩
  simp only [EndSol.isFailure, Sol.isFailure, beq_iff_eq]
  rw [hc, Cost.sum_eq_inf]
  constructor
  · rintro ⟨c, hcm, hci⟩
    rw [List.mem_map] at hcm
    obtain ⟨ch, hch, rfl⟩ := hcm
    exact ⟨ch, hch, hci⟩
  · rintro ⟨ch, hch, hchf⟩
    exact ⟨ch.cost, List.mem_map_of_mem _ hch, hchf⟩

/-- Witness for C3: the cheapest SuccSucc solution satisfies the cost
sum equation. -/
theorem endsolution_cost_and_failure_witness :
    (planTask pplSuccSucc 100).solutions.headD (mkEndSol []) ∈
      (planTask pplSuccSucc 100).solutions ∧
    ((planTask pplSuccSucc 100).solutions.headD (mkEndSol [])).cost =
      Cost.sum ((((planTask pplSuccSucc 100).solutions.headD
        (mkEndSol [])).children).map Sol.cost) :=
  ⟨by decide,
   (endsolution_cost_and_failure pplSuccSucc 100 _ (by decide)).1⟩

/-- C4: the SuccSucc pipeline plans successfully and enumerates exactly
six end-to-end solutions with costs 11, 12, 13, 21, 22, 23 in that
order. -/
theorem succSucc_solutions :
    planReturns pplSuccSucc 100 = true ∧
    (planTask pplSuccSucc 100).solutions.length = 6 ∧
    solutionCosts (planTask pplSuccSucc 100) =
      [.fin 11, .fin 12, .fin 13, .fin 21, .fin 22, .fin 23] := by
  decide

/-- C5: in the PropagatorFailure pipeline the forward failure kills the
generator state before backward scheduling, so planning enumerates no
solution and the backward stage is never invoked. -/
theorem propagatorFailure_pruning :
    (planTask pplPropFail 100).solutions = [] ∧
    planReturns pplPropFail 100 = false ∧
    (planTask pplPropFail 100).callsAt 0 = 0 := by
  decide

/-- C6: in the PruningMultiForward pipeline the infeasible second output
chain does not poison its sibling: exactly one end-to-end solution with
cost 0 is enumerated. -/
theorem multiForward_isolation :
    (planTask pplMultiFwd 100).solutions.length = 1 ∧
    solutionCosts (planTask pplMultiFwd 100) = [.fin 0] := by
  decide

/-- C7: the ConnectConnectForward pipeline enumerates six solutions with
costs 11, 12, 13, 21, 22, 23; the first connector is invoked exactly
three times (the failed pair is never retried and its chain is pruned)
and the second connector exactly six times. -/
theorem connectForward_pruning :
    solutionCosts (planTask pplConnFwd 100) =
      [.fin 11, .fin 12, .fin 13, .fin 21, .fin 22, .fin 23] ∧
    (planTask pplConnFwd 100).callsAt 1 = 3 ∧
    (planTask pplConnFwd 100).callsAt 4 = 6 := by
  decide

/-- C8: in the PropagateInsideContainerBoundaries pipeline the backward
failure outside the SerialContainer prunes the connector compute inside
it: the inner connector is never invoked. -/
theorem containerTransparent_pruning :
    (planTask pplContainer 100).callsAt 2 = 0 ∧
    (planTask pplContainer 100).solutions = [] := by
  decide

/-- C9: mirroring the connector-pruning pipeline preserves the result:
the backward variant enumerates the same six costs in the same sorted
order, the connector adjacent to the failing pair is invoked exactly
three times and the other connector exactly six times, matching the
forward variant's counts. -/
theorem connectBackward_mirror :
    solutionCosts (planTask pplConnBwd 100) =
      [.fin 11, .fin 12, .fin 13, .fin 21, .fin 22, .fin 23] ∧
    solutionCosts (planTask pplConnBwd 100) =
      solutionCosts (planTask pplConnFwd 100) ∧
    (planTask pplConnBwd 100).callsAt 4 = 3 ∧
    (planTask pplConnBwd 100).callsAt 1 = 6 ∧
    (planTask pplConnBwd 100).callsAt 4 = (planTask pplConnFwd 100).callsAt 1 ∧
    (planTask pplConnBwd 100).callsAt 1 = (planTask pplConnFwd 100).callsAt 4 := by
  decide

end MTC

namespace MRViz

/-- C10: the size_t overload of getWayPointDurationFromPrevious is total
over all indices: any index at least the overall step count yields 0.0
instead of indexing out of range, and any smaller index delegates to the
IndexPair overload via indexPair. -/
theorem getWayPointDurationFromPrevious_total (d : DisplaySolution)
    (index : Nat) :
    (d.steps ≤ index → d.getWayPointDurationFromPrevious index = 0) ∧
    (index < d.steps →
      d.getWayPointDurationFromPrevious index =
        d.durationFromPreviousPair (d.indexPair index)) := by
  constructor
  · intro h
    simp [DisplaySolution.getWayPointDurationFromPrevious, h]
  · intro h
    rw [DisplaySolution.getWayPointDurationFromPrevious, if_neg (by omega)]

/-- Witness for C10: both branches at a two-step solution with constant
duration 5. -/
theorem getWayPointDurationFromPrevious_total_witness :
    (2 ≤ 3 ∧
      (DisplaySolution.mk 2 (fun i => (i, 0))
        (fun _ => 5)).getWayPointDurationFromPrevious 3 = 0) ∧
    (1 < 2 ∧
      (DisplaySolution.mk 2 (fun i => (i, 0))
        (fun _ => 5)).getWayPointDurationFromPrevious 1 = 5) :=
  ⟨⟨by omega,
    (getWayPointDurationFromPrevious_total
      (DisplaySolution.mk 2 (fun i => (i, 0)) (fun _ => 5)) 3).1 (by decide)⟩,
   ⟨by omega, by
    rw [(getWayPointDurationFromPrevious_total
      (DisplaySolution.mk 2 (fun i => (i, 0)) (fun _ => 5)) 1).2 (by decide)]⟩⟩

end MRViz
